import Mathlib

/-!
Verification of the encoding/decoding layer in `bit/format.py`
(public keys, addresses, WIF private keys, DER-style ECDSA signatures).

Bytes are modelled as `List Nat` with each element below 256; base58 text is
modelled as the list of base58 digit indices of its characters (the alphabet
is a fixed bijection between digit indices and characters, so lengths and
equality of texts coincide with lengths and equality of digit lists).

External collaborators (DER signature decoding `decode_dss_signature`, curve
decompression `x_to_y`, the ECDSA primitive `verify_signature`, and the
base58check checksum) are not part of `format.py`; they are taken as explicit
function parameters, or modelled from the spec where noted.
-/

namespace BitFormat

/-- Failures raised by the format layer: `InvalidSignature` and `ValueError`. -/
inductive FormatError where
  | invalidSignature : String → FormatError
  | valueError : String → FormatError
deriving DecidableEq

/-- Network tag, per the spec's explicit enumeration of main and test. -/
inductive Network where
  | main
  | test
deriving DecidableEq

instance {ε α : Type} [DecidableEq ε] [DecidableEq α] : DecidableEq (Except ε α) :=
  fun a b =>
    match a, b with
    | Except.ok x, Except.ok y =>
      match decEq x y with
      | isTrue h => isTrue (h ▸ rfl)
      | isFalse h => isFalse (fun hc => h (Except.ok.inj hc))
    | Except.error x, Except.error y =>
      match decEq x y with
      | isTrue h => isTrue (h ▸ rfl)
      | isFalse h => isFalse (fun hc => h (Except.error.inj hc))
    | Except.ok _, Except.error _ => isFalse (fun hc => Except.noConfusion hc)
    | Except.error _, Except.ok _ => isFalse (fun hc => Except.noConfusion hc)

/-- Big-endian positional accumulation: the number whose base-`b` digits
(most significant first) are `ds`. Models Python's `int.from_bytes`
(at `b = 256`) and base58 text decoding (at `b = 58`). -/
def foldBase (b : Nat) (ds : List Nat) : Nat :=
  ds.foldl (fun acc d => acc * b + d) 0

/-- `int.from_bytes(bs, 'big')`. -/
def bytesToNat (bs : List Nat) : Nat := foldBase 256 bs

/-- The value of a big-endian list of base58 digits. -/
def fromB58 (ds : List Nat) : Nat := foldBase 58 ds

/-- Fuel-driven big-endian digit expansion in base `b`; with fuel at least `n`
it returns the digits of `n`, most significant first (empty for `n = 0`).
Structural recursion on the fuel keeps it kernel-evaluable. -/
def natToDigitsBase (b : Nat) : Nat → Nat → List Nat
  | 0, _ => []
  | fuel + 1, n => if n = 0 then [] else natToDigitsBase b fuel (n / b) ++ [n % b]

/-- Minimal big-endian base-58 digits of `n` (empty for 0). -/
def natToB58 (n : Nat) : List Nat := natToDigitsBase 58 n n

/-- Minimal big-endian bytes of `n` (empty for 0). -/
def natToBytes (n : Nat) : List Nat := natToDigitsBase 256 n n

/-- Python's `n.to_bytes(k, 'big')`: `n` as exactly `k` big-endian bytes. -/
def natToBytesFixed (n : Nat) : Nat → List Nat
  | 0 => []
  | k + 1 => natToBytesFixed (n / 256) k ++ [n % 256]

/-- Modelled from the spec: `int_to_unknown_bytes` from `bit/utils.py`
(not under `src/`): the minimal-length big-endian byte sequence representing
the integer (one zero byte for 0). -/
def int_to_unknown_bytes (n : Nat) : List Nat :=
  if n = 0 then [0] else natToBytes n

/-- Modelled from the spec: `GROUP_ORDER` from `bit/curve.py` (not under
`src/`), "the curve's group order constant" of secp256k1. -/
def GROUP_ORDER : Nat :=
  0xfffffffffffffffffffffffffffffffebaaedce6af48a03bbfd25e8cd0364141

def MAIN_PUBKEY_HASH : Nat := 0x00
def MAIN_PRIVATE_KEY : Nat := 0x80
def TEST_PUBKEY_HASH : Nat := 0x6f
def TEST_PRIVATE_KEY : Nat := 0xef
def PUBLIC_KEY_UNCOMPRESSED : Nat := 0x04
def PUBLIC_KEY_COMPRESSED_EVEN_Y : Nat := 0x02
def PUBLIC_KEY_COMPRESSED_ODD_Y : Nat := 0x03
def PRIVATE_KEY_COMPRESSED_PUBKEY : Nat := 0x01

/-- The low-S step of `make_compliant_sig`:
`s = GROUP_ORDER - s if s > GROUP_ORDER // 2 else s`. -/
def lowS (s : Nat) : Nat := if s > GROUP_ORDER / 2 then GROUP_ORDER - s else s

/-- The serialization part of `make_compliant_sig`: DER-style encoding of the
pair `(r0, s0)`. The test `x[0] & 0x80` on a byte is written as its bit 7,
`x / 0x80 % 2 = 1`. -/
def serialize_sig (r0 s0 : Nat) : List Nat :=
  let r1 := int_to_unknown_bytes r0
  let s1 := int_to_unknown_bytes s0
  let r2 := if r1.headD 0 / 0x80 % 2 = 1 then 0x00 :: r1 else r1
  let s2 := if s1.headD 0 / 0x80 % 2 = 1 then 0x00 :: s1 else s1
  let r3 := 0x02 :: int_to_unknown_bytes r2.length ++ r2
  let s3 := 0x02 :: int_to_unknown_bytes s2.length ++ s2
  0x30 :: int_to_unknown_bytes (r3.length + s3.length) ++ r3 ++ s3

/-- `make_compliant_sig` from `bit/format.py`; the external DER decode
primitive `decode_dss_signature` is the parameter `dds`. -/
def make_compliant_sig (dds : List Nat → Except FormatError (Nat × Nat))
    (signature : List Nat) : Except FormatError (List Nat) :=
  (dds signature).map (fun rs => serialize_sig rs.1 (lowS rs.2))

/-- `public_key_to_coords` from `bit/format.py`; the external curve
decompression primitive `x_to_y` is the parameter `x2y` (given `x` and the
parity bit `flag & 1`, it returns `y` or fails). -/
def public_key_to_coords (x2y : Nat → Nat → Except FormatError Nat)
    (public_key : List Nat) : Except FormatError (Nat × Nat) :=
  if public_key.length = 33 then
    let flag := bytesToNat (public_key.take 1)
    let x := bytesToNat (public_key.drop 1)
    (x2y x (flag % 2)).map (fun y => (x, y))
  else if public_key.length = 65 then
    Except.ok (bytesToNat ((public_key.drop 1).take 32), bytesToNat (public_key.drop 33))
  else
    Except.error (.valueError "invalid length for a public key")

/-- `coords_to_public_key` from `bit/format.py`. -/
def coords_to_public_key (x y : Nat) (compressed : Bool) : List Nat :=
  if compressed then
    (if y % 2 = 1 then PUBLIC_KEY_COMPRESSED_ODD_Y else PUBLIC_KEY_COMPRESSED_EVEN_Y)
      :: natToBytesFixed x 32
  else
    PUBLIC_KEY_UNCOMPRESSED :: (natToBytesFixed x 32 ++ natToBytesFixed y 32)

/-- `verify_sig` from `bit/format.py`; the external ECDSA verification
primitive `verify_signature` is the parameter `vfy`. -/
def verify_sig (dds : List Nat → Except FormatError (Nat × Nat))
    (x2y : Nat → Nat → Except FormatError Nat)
    (vfy : List Nat → List Nat → Nat × Nat → Bool)
    (signature data public_key : List Nat) (strict : Bool) :
    Except FormatError Bool :=
  if strict then
    match dds signature with
    | Except.error e => Except.error e
    | Except.ok rs =>
      if rs.2 > GROUP_ORDER / 2 then Except.error (.invalidSignature "High S")
      else (public_key_to_coords x2y public_key).map (vfy signature data)
  else
    (public_key_to_coords x2y public_key).map (vfy signature data)

/-- Modelled from the spec: base58 encoding from `bit/base58.py` (not under
`src/`): each leading zero byte becomes the digit for zero (the character
for 1), the remaining value is written in base 58. -/
def b58encode (bs : List Nat) : List Nat :=
  List.replicate (bs.takeWhile (fun x => x == 0)).length 0 ++ natToB58 (bytesToNat bs)

/-- Modelled from the spec: base58 decoding from `bit/base58.py` (not under
`src/`): fails (`none`) on a character outside the alphabet; each leading
zero digit becomes a zero byte, the whole digit string is read as a base-58
number whose minimal bytes follow. -/
def b58decode (ds : List Nat) : Option (List Nat) :=
  if ds.all (fun d => decide (d < 58)) then
    some (List.replicate (ds.takeWhile (fun d => d == 0)).length 0 ++
      natToBytes (fromB58 ds))
  else none

/-- Modelled from the spec: `b58encode_check` from `bit/base58.py` (not under
`src/`): append the 4-byte checksum of the payload, then base58-encode. The
double-SHA-256 checksum primitive is kept abstract as the parameter `csum`. -/
def b58encode_check (csum : List Nat → List Nat) (bs : List Nat) : List Nat :=
  b58encode (bs ++ csum bs)

/-- Modelled from the spec: `b58decode_check` from `bit/base58.py` (not under
`src/`): base58-decode, require the last four bytes to equal the checksum of
the rest (else fail with `none`, the model of the raised checksum error),
and return the rest. -/
def b58decode_check (csum : List Nat → List Nat) (ds : List Nat) :
    Option (List Nat) :=
  match b58decode ds with
  | none => none
  | some d =>
    if 4 ≤ d.length ∧ d.drop (d.length - 4) = csum (d.take (d.length - 4)) then
      some (d.take (d.length - 4))
    else none

/-- `address_to_public_key_hash` from `bit/format.py`: literally
`b58decode_check(address)[1:]`. -/
def address_to_public_key_hash (csum : List Nat → List Nat)
    (address : List Nat) : Option (List Nat) :=
  (b58decode_check csum address).map (List.drop 1)

/-- `hex_to_wif` from `bit/format.py`. The version string argument is
modelled by the `Network` enumeration; the hex/bytes duck typing of the key
argument is normalized to bytes before the call. -/
def hex_to_wif (csum : List Nat → List Nat) (private_key : List Nat)
    (version : Network) (compressed : Bool) : List Nat :=
  let ver := match version with
    | Network.test => TEST_PRIVATE_KEY
    | Network.main => MAIN_PRIVATE_KEY
  let suffix := if compressed then [PRIVATE_KEY_COMPRESSED_PUBKEY] else []
  b58encode_check csum (ver :: private_key ++ suffix)

/-- `wif_to_hex` from `bit/format.py`. Returns the key bytes (the source
renders them in hex via `bytes_to_hex`, an injective rendering from
`bit/utils.py`, not under `src/`), the compression flag and the network.
Raised errors (checksum failure, unknown version) are modelled as `none`. -/
def wif_to_hex (csum : List Nat → List Nat) (wif : List Nat) :
    Option (List Nat × Bool × Network) :=
  match b58decode_check csum wif with
  | none => none
  | some private_key =>
    match (if private_key.take 1 = [MAIN_PRIVATE_KEY] then some Network.main
           else if private_key.take 1 = [TEST_PRIVATE_KEY] then some Network.test
           else none) with
    | none => none
    | some version =>
      if wif.length = 52 ∧ private_key.getLastD 0 = 1 then
        some ((private_key.drop 1).dropLast, true, version)
      else
        some (private_key.drop 1, false, version)

/-- `wif_checksum_check` from `bit/format.py`. -/
def wif_checksum_check (csum : List Nat → List Nat) (wif : List Nat) : Bool :=
  match b58decode_check csum wif with
  | none => false
  | some decoded =>
    if decoded.take 1 = [MAIN_PRIVATE_KEY] ∨ decoded.take 1 = [TEST_PRIVATE_KEY]
    then true else false

/-- A concrete stand-in checksum used to instantiate the abstract checksum
parameter on concrete inputs. -/
def csum0 : List Nat → List Nat := fun _ => [0, 0, 0, 0]

/-- A concrete decompression primitive that always fails. -/
def x2y0 : Nat → Nat → Except FormatError Nat := fun _ _ => Except.error (.valueError "no y")

/-- A concrete decompression primitive that always answers `y = 1`. -/
def x2yW : Nat → Nat → Except FormatError Nat := fun _ _ => Except.ok 1

/-- A concrete DER decoder answering a fixed high-S pair. -/
def ddsHigh : List Nat → Except FormatError (Nat × Nat) :=
  fun _ => Except.ok (1, GROUP_ORDER - 1)

/-- A concrete DER decoder answering a fixed low-S pair. -/
def ddsConst : List Nat → Except FormatError (Nat × Nat) :=
  fun _ => Except.ok (5, 6)

/-- A concrete ECDSA primitive that always accepts. -/
def vfy0 : List Nat → List Nat → Nat × Nat → Bool := fun _ _ _ => true

theorem foldBase_go (b : Nat) (ds : List Nat) (a : Nat) :
    ds.foldl (fun acc d => acc * b + d) a = a * b ^ ds.length + foldBase b ds := by
  induction ds generalizing a with
  | nil => simp [foldBase]
  | cons d ds ih =>
    simp only [List.foldl_cons, List.length_cons, foldBase] at *
    rw [ih (a * b + d), ih (0 * b + d)]
    ring

theorem foldBase_cons (b : Nat) (d : Nat) (ds : List Nat) :
    foldBase b (d :: ds) = d * b ^ ds.length + foldBase b ds := by
  simp only [foldBase, List.foldl_cons]
  simpa using foldBase_go b ds d

theorem foldBase_append (b : Nat) (l m : List Nat) :
    foldBase b (l ++ m) = foldBase b l * b ^ m.length + foldBase b m := by
  simp only [foldBase, List.foldl_append]
  exact foldBase_go b m _

theorem foldBase_lt (b : Nat) (ds : List Nat)
    (h : ∀ d ∈ ds, d < b) : foldBase b ds < b ^ ds.length := by
  induction ds with
  | nil => simp [foldBase]
  | cons d ds ih =>
    have hd : d < b := h d (by simp)
    have hds : foldBase b ds < b ^ ds.length := ih (fun x hx => h x (by simp [hx]))
    rw [foldBase_cons, List.length_cons, pow_succ]
    calc d * b ^ ds.length + foldBase b ds
        < d * b ^ ds.length + b ^ ds.length := by omega
      _ = (d + 1) * b ^ ds.length := by ring
      _ ≤ b * b ^ ds.length := Nat.mul_le_mul_right _ hd
      _ = b ^ ds.length * b := by ring

theorem foldBase_eq_ofDigits (b : Nat) (l : List Nat) :
    foldBase b l = Nat.ofDigits b l.reverse := by
  induction l using List.reverseRecOn with
  | nil => simp [foldBase]
  | append_singleton l a ih =>
    rw [foldBase_append, List.reverse_append]
    simp only [List.reverse_cons, List.reverse_nil, List.nil_append, List.singleton_append,
      Nat.ofDigits_cons, ih]
    simp [foldBase]
    ring

theorem natToDigitsBase_eq_digits (b : Nat) (hb : 2 ≤ b) :
    ∀ fuel n, n ≤ fuel → natToDigitsBase b fuel n = (Nat.digits b n).reverse := by
  intro fuel
  induction fuel with
  | zero =>
    intro n hn
    have : n = 0 := by omega
    subst this
    simp [natToDigitsBase]
  | succ fuel ih =>
    intro n hn
    by_cases h0 : n = 0
    · subst h0
      simp [natToDigitsBase]
    · have hpos : 0 < n := Nat.pos_of_ne_zero h0
      have hdiv : n / b < n := Nat.div_lt_self hpos (by omega)
      rw [natToDigitsBase, if_neg h0, ih (n / b) (by omega),
        Nat.digits_def' (by omega : 1 < b) hpos, List.reverse_cons]

theorem natToB58_eq (n : Nat) : natToB58 n = (Nat.digits 58 n).reverse :=
  natToDigitsBase_eq_digits 58 (by omega) n n le_rfl

theorem natToBytes_eq (n : Nat) : natToBytes n = (Nat.digits 256 n).reverse :=
  natToDigitsBase_eq_digits 256 (by omega) n n le_rfl

theorem fromB58_natToB58 (n : Nat) : fromB58 (natToB58 n) = n := by
  show foldBase 58 (natToB58 n) = n
  rw [natToB58_eq, foldBase_eq_ofDigits, List.reverse_reverse, Nat.ofDigits_digits]

theorem bytesToNat_ofDigits (bs : List Nat) :
    bytesToNat bs = Nat.ofDigits 256 bs.reverse :=
  foldBase_eq_ofDigits 256 bs

theorem natToBytes_bytesToNat (h : Nat) (t : List Nat) (hh : h ≠ 0)
    (hb : ∀ x ∈ h :: t, x < 256) :
    natToBytes (bytesToNat (h :: t)) = h :: t := by
  rw [bytesToNat_ofDigits, natToBytes_eq,
    Nat.digits_ofDigits 256 (by omega) _ ?w1 ?w2, List.reverse_reverse]
  case w1 =>
    intro l hl
    exact hb l (List.mem_reverse.1 hl)
  case w2 =>
    intro hne
    rw [List.getLast_reverse]
    simpa using hh

theorem takeWhile_zero_nil (d : Nat) (ds : List Nat) (h0 : d ≠ 0) :
    (d :: ds).takeWhile (fun x => x == 0) = [] := by
  simp [List.takeWhile_cons, h0]

theorem natToB58_head (n : Nat) (hn : n ≠ 0) :
    ∃ d ds, natToB58 n = d :: ds ∧ d ≠ 0 := by
  have hne : Nat.digits 58 n ≠ [] := Nat.digits_ne_nil_iff_ne_zero.mpr hn
  have hsplit := List.dropLast_concat_getLast hne
  refine ⟨(Nat.digits 58 n).getLast hne, (Nat.digits 58 n).dropLast.reverse, ?_,
    Nat.getLast_digit_ne_zero 58 hn⟩
  rw [natToB58_eq]
  conv_lhs => rw [← hsplit]
  rw [List.reverse_append]
  simp

theorem natToB58_lt (n : Nat) : ∀ d ∈ natToB58 n, d < 58 := by
  intro d hd
  rw [natToB58_eq, List.mem_reverse] at hd
  exact Nat.digits_lt_base (by omega) hd

theorem b58encode_cons (h : Nat) (t : List Nat) (hh : h ≠ 0) :
    b58encode (h :: t) = natToB58 (bytesToNat (h :: t)) := by
  unfold b58encode
  rw [takeWhile_zero_nil h t hh]
  simp

theorem bytesToNat_pos (h : Nat) (t : List Nat) (hh : h ≠ 0) :
    bytesToNat (h :: t) ≠ 0 := by
  show foldBase 256 (h :: t) ≠ 0
  rw [foldBase_cons]
  have hp : 0 < 256 ^ t.length := pow_pos (by omega) _
  have h1 : 1 * 1 ≤ h * 256 ^ t.length :=
    Nat.mul_le_mul (by omega) hp
  omega

theorem b58decode_encode (h : Nat) (t : List Nat) (hh : h ≠ 0)
    (hbytes : ∀ x ∈ h :: t, x < 256) :
    b58decode (b58encode (h :: t)) = some (h :: t) := by
  rw [b58encode_cons h t hh]
  have hT : bytesToNat (h :: t) ≠ 0 := bytesToNat_pos h t hh
  obtain ⟨d0, ds0, he, hd0⟩ := natToB58_head _ hT
  unfold b58decode
  rw [if_pos ?hall, he, takeWhile_zero_nil d0 ds0 hd0, ← he, fromB58_natToB58,
    natToBytes_bytesToNat h t hh hbytes]
  · simp
  case hall =>
    rw [List.all_eq_true]
    intro d hd
    exact decide_eq_true (natToB58_lt _ d hd)

theorem b58decode_check_encode (csum : List Nat → List Nat)
    (hc4 : ∀ bs, (csum bs).length = 4)
    (hc256 : ∀ bs, ∀ x ∈ csum bs, x < 256)
    (h : Nat) (t : List Nat) (hh : h ≠ 0)
    (hbytes : ∀ x ∈ h :: t, x < 256) :
    b58decode_check csum (b58encode_check csum (h :: t)) = some (h :: t) := by
  have hfull : (h :: t) ++ csum (h :: t) = h :: (t ++ csum (h :: t)) := by simp
  have hfb : ∀ x ∈ h :: (t ++ csum (h :: t)), x < 256 := by
    intro x hx
    rcases List.mem_cons.1 hx with rfl | hx
    · exact hbytes x (by simp)
    · rcases List.mem_append.1 hx with hx | hx
      · exact hbytes x (by simp [hx])
      · exact hc256 (h :: t) x hx
  have hdec : b58decode (b58encode_check csum (h :: t)) =
      some (h :: (t ++ csum (h :: t))) := by
    unfold b58encode_check
    rw [hfull]
    exact b58decode_encode h _ hh hfb
  have hlen : (h :: (t ++ csum (h :: t))).length = (h :: t).length + 4 := by
    simp [hc4]
  have hsub : (h :: (t ++ csum (h :: t))).length - 4 = (h :: t).length := by omega
  have htake : (h :: (t ++ csum (h :: t))).take ((h :: t).length) = h :: t := by
    rw [← hfull]
    exact List.take_left' rfl
  have hdrop : (h :: (t ++ csum (h :: t))).drop ((h :: t).length) = csum (h :: t) := by
    rw [← hfull]
    exact List.drop_left' rfl
  unfold b58decode_check
  rw [hdec]
  show (if 4 ≤ (h :: (t ++ csum (h :: t))).length ∧
      List.drop ((h :: (t ++ csum (h :: t))).length - 4) (h :: (t ++ csum (h :: t))) =
        csum (List.take ((h :: (t ++ csum (h :: t))).length - 4) (h :: (t ++ csum (h :: t)))) then
      some (List.take ((h :: (t ++ csum (h :: t))).length - 4) (h :: (t ++ csum (h :: t))))
    else none) = some (h :: t)
  rw [hsub, htake, hdrop]
  rw [if_pos ⟨by omega, rfl⟩]

theorem natToB58_length (n k : Nat) (h1 : 58 ^ k ≤ n) (h2 : n < 58 ^ (k + 1)) :
    (natToB58 n).length = k + 1 := by
  have hp : 0 < 58 ^ k := pow_pos (by omega) _
  have hn : n ≠ 0 := by omega
  rw [natToB58_eq, List.length_reverse, Nat.digits_len 58 n (by omega) hn,
    Nat.log_eq_of_pow_le_of_lt_pow h1 h2]

theorem b58encode_check_length (csum : List Nat → List Nat)
    (hc4 : ∀ bs, (csum bs).length = 4)
    (hc256 : ∀ bs, ∀ x ∈ csum bs, x < 256)
    (h : Nat) (t : List Nat) (h128 : 128 ≤ h) (h256 : h < 256)
    (hbytes : ∀ x ∈ t, x < 256) (kk : Nat)
    (hlow : 58 ^ kk ≤ 128 * 256 ^ (t.length + 4))
    (hhigh : 256 ^ (t.length + 5) ≤ 58 ^ (kk + 1)) :
    (b58encode_check csum (h :: t)).length = kk + 1 := by
  have hh : h ≠ 0 := by omega
  have hfull : (h :: t) ++ csum (h :: t) = h :: (t ++ csum (h :: t)) := by simp
  have hfb : ∀ x ∈ h :: (t ++ csum (h :: t)), x < 256 := by
    intro x hx
    rcases List.mem_cons.1 hx with rfl | hx
    · exact h256
    · rcases List.mem_append.1 hx with hx | hx
      · exact hbytes x hx
      · exact hc256 (h :: t) x hx
  have hlen2 : (t ++ csum (h :: t)).length = t.length + 4 := by simp [hc4]
  have hTlow : 128 * 256 ^ (t.length + 4) ≤ bytesToNat (h :: (t ++ csum (h :: t))) := by
    show _ ≤ foldBase 256 _
    rw [foldBase_cons, hlen2]
    have := Nat.mul_le_mul_right (256 ^ (t.length + 4)) h128
    omega
  have hThigh : bytesToNat (h :: (t ++ csum (h :: t))) < 256 ^ (t.length + 5) := by
    have hlt := foldBase_lt 256 (h :: (t ++ csum (h :: t))) hfb
    rw [List.length_cons, hlen2] at hlt
    have he : t.length + 4 + 1 = t.length + 5 := by omega
    rw [he] at hlt
    exact hlt
  have henc : b58encode_check csum (h :: t) =
      natToB58 (bytesToNat (h :: (t ++ csum (h :: t)))) := by
    unfold b58encode_check
    rw [hfull, b58encode_cons h _ hh]
  rw [henc]
  exact natToB58_length _ kk (le_trans hlow hTlow) (lt_of_lt_of_le hThigh hhigh)

theorem take_one_cons (a : Nat) (l : List Nat) : (a :: l).take 1 = [a] := rfl

theorem drop_one_cons (a : Nat) (l : List Nat) : (a :: l).drop 1 = l := rfl

theorem wif_encode_aux (csum : List Nat → List Nat)
    (hc4 : ∀ bs, (csum bs).length = 4)
    (hc256 : ∀ bs, ∀ x ∈ csum bs, x < 256)
    (vb : Nat) (h128 : 128 ≤ vb) (h256 : vb < 256)
    (body : List Nat) (hbytes : ∀ x ∈ body, x < 256) (kk : Nat)
    (hlow : 58 ^ kk ≤ 128 * 256 ^ (body.length + 4))
    (hhigh : 256 ^ (body.length + 5) ≤ 58 ^ (kk + 1)) :
    b58decode_check csum (b58encode_check csum (vb :: body)) = some (vb :: body) ∧
    (b58encode_check csum (vb :: body)).length = kk + 1 := by
  refine ⟨b58decode_check_encode csum hc4 hc256 vb body (by omega) ?_,
    b58encode_check_length csum hc4 hc256 vb body h128 h256 hbytes kk hlow hhigh⟩
  intro x hx
  rcases List.mem_cons.1 hx with rfl | hx
  · exact h256
  · exact hbytes x hx

theorem wif_to_hex_of_decode (csum : List Nat → List Nat) (wif : List Nat)
    (p : List Nat) (hdec : b58decode_check csum wif = some p)
    (ver : Network)
    (hver : (ver = Network.main ∧ p.take 1 = [MAIN_PRIVATE_KEY]) ∨
            (ver = Network.test ∧ p.take 1 = [TEST_PRIVATE_KEY])) :
    wif_to_hex csum wif =
      (if wif.length = 52 ∧ p.getLastD 0 = 1 then
        some ((p.drop 1).dropLast, true, ver)
      else some (p.drop 1, false, ver)) := by
  simp only [wif_to_hex, hdec]
  rcases hver with ⟨rfl, hp⟩ | ⟨rfl, hp⟩
  · rw [if_pos hp]
  · rw [if_neg (by rw [hp]; simp [TEST_PRIVATE_KEY, MAIN_PRIVATE_KEY]), if_pos hp]

/-- C3: for every 32-byte key, each network and each compression flag,
decoding the WIF text produced by encoding yields back exactly the key, the
flag and the network. -/
theorem wif_round_trip (csum : List Nat → List Nat)
    (hc4 : ∀ bs, (csum bs).length = 4)
    (hc256 : ∀ bs, ∀ x ∈ csum bs, x < 256)
    (k : List Nat) (hk : k.length = 32) (hkb : ∀ x ∈ k, x < 256)
    (ver : Network) (c : Bool) :
    wif_to_hex csum (hex_to_wif csum k ver c) = some (k, c, ver) := by
  have hb1 : ∀ x ∈ k ++ [1], x < 256 := by
    intro x hx
    rcases List.mem_append.1 hx with hx | hx
    · exact hkb x hx
    · simp at hx
      omega
  have hbl : (k ++ [1]).length = 33 := by simp [hk]
  have hcons : ∀ vb : Nat, vb :: (k ++ [1]) = (vb :: k) ++ [1] := by simp
  cases ver with
  | main =>
    cases c with
    | true =>
      obtain ⟨hdec, hlen⟩ := wif_encode_aux csum hc4 hc256 128 (by omega) (by omega)
        (k ++ [1]) hb1 51 (by rw [hbl]; decide) (by rw [hbl]; decide)
      have hew : hex_to_wif csum k Network.main true =
          b58encode_check csum (128 :: (k ++ [1])) := rfl
      rw [hew, wif_to_hex_of_decode csum _ _ hdec Network.main
        (Or.inl ⟨rfl, take_one_cons 128 (k ++ [1])⟩)]
      rw [if_pos ⟨by rw [hlen], by rw [hcons 128]; exact List.getLastD_concat _ _ _⟩]
      rw [drop_one_cons, List.dropLast_concat]
    | false =>
      obtain ⟨hdec, hlen⟩ := wif_encode_aux csum hc4 hc256 128 (by omega) (by omega)
        k hkb 50 (by rw [hk]; decide) (by rw [hk]; decide)
      have hew : hex_to_wif csum k Network.main false =
          b58encode_check csum (128 :: k) := by
        show b58encode_check csum (128 :: (k ++ [])) = _
        rw [List.append_nil]
      rw [hew, wif_to_hex_of_decode csum _ _ hdec Network.main
        (Or.inl ⟨rfl, take_one_cons 128 k⟩)]
      rw [if_neg (by rw [hlen]; omega), drop_one_cons]
  | test =>
    cases c with
    | true =>
      obtain ⟨hdec, hlen⟩ := wif_encode_aux csum hc4 hc256 239 (by omega) (by omega)
        (k ++ [1]) hb1 51 (by rw [hbl]; decide) (by rw [hbl]; decide)
      have hew : hex_to_wif csum k Network.test true =
          b58encode_check csum (239 :: (k ++ [1])) := rfl
      rw [hew, wif_to_hex_of_decode csum _ _ hdec Network.test
        (Or.inr ⟨rfl, take_one_cons 239 (k ++ [1])⟩)]
      rw [if_pos ⟨by rw [hlen], by rw [hcons 239]; exact List.getLastD_concat _ _ _⟩]
      rw [drop_one_cons, List.dropLast_concat]
    | false =>
      obtain ⟨hdec, hlen⟩ := wif_encode_aux csum hc4 hc256 239 (by omega) (by omega)
        k hkb 50 (by rw [hk]; decide) (by rw [hk]; decide)
      have hew : hex_to_wif csum k Network.test false =
          b58encode_check csum (239 :: k) := by
        show b58encode_check csum (239 :: (k ++ [])) = _
        rw [List.append_nil]
      rw [hew, wif_to_hex_of_decode csum _ _ hdec Network.test
        (Or.inr ⟨rfl, take_one_cons 239 k⟩)]
      rw [if_neg (by rw [hlen]; omega), drop_one_cons]

/-- Witness for C3: the round trip evaluated at the all-zero 32-byte key on
mainnet with compression. -/
theorem wif_round_trip_witness :
    wif_to_hex csum0 (hex_to_wif csum0 (List.replicate 32 0) Network.main true) =
      some (List.replicate 32 0, true, Network.main) :=
  wif_round_trip csum0 (fun _ => rfl)
    (fun bs x hx => by simp [csum0] at hx; omega)
    (List.replicate 32 0) (by simp)
    (fun x hx => by rw [List.eq_of_mem_replicate hx]; omega)
    Network.main true

theorem natToBytesFixed_length (n k : Nat) : (natToBytesFixed n k).length = k := by
  induction k generalizing n with
  | zero => rfl
  | succ k ih => simp [natToBytesFixed, ih]

theorem bytesToNat_natToBytesFixed (k n : Nat) (h : n < 256 ^ k) :
    bytesToNat (natToBytesFixed n k) = n := by
  induction k generalizing n with
  | zero =>
    simp only [pow_zero] at h
    have : n = 0 := by omega
    subst this
    rfl
  | succ k ih =>
    have h1 : n / 256 < 256 ^ k := by
      rw [pow_succ] at h
      omega
    have h2 : bytesToNat (natToBytesFixed (n / 256) k) = n / 256 := ih (n / 256) h1
    show foldBase 256 (natToBytesFixed (n / 256) k ++ [n % 256]) = n
    rw [foldBase_append]
    have h3 : foldBase 256 [n % 256] = n % 256 := by simp [foldBase]
    have h4 : foldBase 256 (natToBytesFixed (n / 256) k) = n / 256 := h2
    rw [h3, h4]
    simp only [List.length_singleton, pow_one]
    omega

theorem natToBytesFixed_bytesToNat (bs : List Nat) (hb : ∀ x ∈ bs, x < 256) :
    natToBytesFixed (bytesToNat bs) bs.length = bs := by
  induction bs using List.reverseRecOn with
  | nil => rfl
  | append_singleton l a ih =>
    have ha : a < 256 := hb a (by simp)
    have hl : ∀ x ∈ l, x < 256 := fun x hx => hb x (by simp [hx])
    have hNat : bytesToNat (l ++ [a]) = bytesToNat l * 256 + a := by
      show foldBase 256 (l ++ [a]) = foldBase 256 l * 256 + a
      rw [foldBase_append]
      simp [foldBase]
    have hlen : (l ++ [a]).length = l.length + 1 := by simp
    rw [hNat, hlen]
    have hdiv : (bytesToNat l * 256 + a) / 256 = bytesToNat l := by omega
    have hmod : (bytesToNat l * 256 + a) % 256 = a := by omega
    show natToBytesFixed ((bytesToNat l * 256 + a) / 256) l.length ++
      [(bytesToNat l * 256 + a) % 256] = l ++ [a]
    rw [hdiv, hmod, ih hl]

theorem bytesToNat_singleton (b : Nat) : bytesToNat [b] = b := by
  simp [bytesToNat, foldBase]

theorem public_key_to_coords_badlen (x2y : Nat → Nat → Except FormatError Nat)
    (pk : List Nat) (h33 : pk.length ≠ 33) (h65 : pk.length ≠ 65) :
    public_key_to_coords x2y pk =
      Except.error (FormatError.valueError "invalid length for a public key") := by
  unfold public_key_to_coords
  rw [if_neg h33, if_neg h65]

theorem public_key_to_coords_cons33 (x2y : Nat → Nat → Except FormatError Nat)
    (b : Nat) (xs : List Nat) (hlen : xs.length = 32) :
    public_key_to_coords x2y (b :: xs) =
      (x2y (bytesToNat xs) (b % 2)).map (fun y => (bytesToNat xs, y)) := by
  unfold public_key_to_coords
  rw [if_pos (by rw [List.length_cons, hlen])]
  rw [take_one_cons, drop_one_cons, bytesToNat_singleton]

theorem public_key_to_coords_cons65 (x2y : Nat → Nat → Except FormatError Nat)
    (b : Nat) (xs : List Nat) (hlen : xs.length = 64) :
    public_key_to_coords x2y (b :: xs) =
      Except.ok (bytesToNat (xs.take 32), bytesToNat (xs.drop 32)) := by
  unfold public_key_to_coords
  rw [if_neg (by rw [List.length_cons, hlen]; decide),
    if_pos (by rw [List.length_cons, hlen])]
  rw [drop_one_cons]
  have hdrop : (b :: xs).drop 33 = xs.drop 32 := rfl
  rw [hdrop]

/-- C1 (amended): `public_key_to_coords` rejects any length other than 33 or
65, but the first byte is not otherwise validated: a 65-byte input is parsed
into coordinates regardless of its first byte, and a 33-byte input uses only
the low bit of its first byte as the parity flag. -/
theorem public_key_to_coords_validation (x2y : Nat → Nat → Except FormatError Nat) :
    (∀ pk : List Nat, pk.length ≠ 33 → pk.length ≠ 65 →
      public_key_to_coords x2y pk =
        Except.error (FormatError.valueError "invalid length for a public key")) ∧
    (∀ b xs, xs.length = 64 →
      public_key_to_coords x2y (b :: xs) =
        Except.ok (bytesToNat (xs.take 32), bytesToNat (xs.drop 32))) ∧
    (∀ b xs, xs.length = 32 →
      public_key_to_coords x2y (b :: xs) =
        (x2y (bytesToNat xs) (b % 2)).map (fun y => (bytesToNat xs, y))) :=
  ⟨fun pk h33 h65 => public_key_to_coords_badlen x2y pk h33 h65,
   fun b xs hlen => public_key_to_coords_cons65 x2y b xs hlen,
   fun b xs hlen => public_key_to_coords_cons33 x2y b xs hlen⟩

/-- Witness for C1 (amended): a 3-byte key is rejected; a 65-byte key with
first byte 9 is parsed without any check of the marker byte. -/
theorem public_key_to_coords_validation_witness :
    public_key_to_coords x2y0 [1, 2, 3] =
      Except.error (FormatError.valueError "invalid length for a public key") ∧
    public_key_to_coords x2y0 (9 :: List.replicate 64 2) =
      Except.ok (bytesToNat ((List.replicate 64 2).take 32),
        bytesToNat ((List.replicate 64 2).drop 32)) :=
  ⟨(public_key_to_coords_validation x2y0).1 [1, 2, 3] (by decide) (by decide),
   (public_key_to_coords_validation x2y0).2.1 9 (List.replicate 64 2) (by simp)⟩

/-- Counterexample to C1 as stated: a 65-byte public key whose first byte is
5 (not the required 0x04) is accepted and decoded to coordinates instead of
being rejected as invalid. -/
theorem public_key_to_coords_no_marker_check :
    public_key_to_coords x2y0
      (5 :: (List.replicate 32 0 ++ (List.replicate 31 0 ++ [7]))) =
      Except.ok (0, 7) := by decide

/-- C7: decoding the encoding of a valid curve point recovers the point, for
both the compressed and the uncompressed encoding (the external
decompression primitive is assumed to honour its contract of returning the
unique `y` with the requested parity). -/
theorem coords_round_trip (x2y : Nat → Nat → Except FormatError Nat)
    (x y : Nat) (hx : x < 256 ^ 32) (hy : y < 256 ^ 32)
    (hxy : x2y x (y % 2) = Except.ok y) :
    public_key_to_coords x2y (coords_to_public_key x y true) = Except.ok (x, y) ∧
    public_key_to_coords x2y (coords_to_public_key x y false) = Except.ok (x, y) := by
  constructor
  · by_cases hpar : y % 2 = 1
    · have hshape : coords_to_public_key x y true = 3 :: natToBytesFixed x 32 := by
        simp [coords_to_public_key, hpar, PUBLIC_KEY_COMPRESSED_ODD_Y]
      rw [hshape, public_key_to_coords_cons33 x2y 3 _ (natToBytesFixed_length x 32),
        bytesToNat_natToBytesFixed 32 x hx]
      have h32 : (3 : Nat) % 2 = y % 2 := by omega
      rw [h32, hxy]
      rfl
    · have hshape : coords_to_public_key x y true = 2 :: natToBytesFixed x 32 := by
        simp [coords_to_public_key, hpar, PUBLIC_KEY_COMPRESSED_EVEN_Y]
      rw [hshape, public_key_to_coords_cons33 x2y 2 _ (natToBytesFixed_length x 32),
        bytesToNat_natToBytesFixed 32 x hx]
      have h22 : (2 : Nat) % 2 = y % 2 := by omega
      rw [h22, hxy]
      rfl
  · have hshape : coords_to_public_key x y false =
        4 :: (natToBytesFixed x 32 ++ natToBytesFixed y 32) := by
      simp [coords_to_public_key, PUBLIC_KEY_UNCOMPRESSED]
    rw [hshape, public_key_to_coords_cons65 x2y 4 _
      (by simp [natToBytesFixed_length])]
    rw [List.take_left' (natToBytesFixed_length x 32),
      List.drop_left' (natToBytesFixed_length x 32),
      bytesToNat_natToBytesFixed 32 x hx, bytesToNat_natToBytesFixed 32 y hy]

/-- Witness for C7: the round trip evaluated at the point (0, 1) with a
decompression primitive answering 1. -/
theorem coords_round_trip_witness :
    public_key_to_coords x2yW (coords_to_public_key 0 1 true) = Except.ok (0, 1) ∧
    public_key_to_coords x2yW (coords_to_public_key 0 1 false) = Except.ok (0, 1) :=
  coords_round_trip x2yW 0 1 (by decide) (by decide) rfl

/-- C8: re-encoding the decoding of a well-formed 33- or 65-byte public key,
with the matching compression mode, reproduces the input bytes exactly (the
external decompression primitive is assumed to honour its parity
contract). -/
theorem public_key_bytes_round_trip (x2y : Nat → Nat → Except FormatError Nat) :
    (∀ b xs y, xs.length = 32 → (∀ v ∈ xs, v < 256) →
      (b = PUBLIC_KEY_COMPRESSED_EVEN_Y ∨ b = PUBLIC_KEY_COMPRESSED_ODD_Y) →
      x2y (bytesToNat xs) (b % 2) = Except.ok y → y % 2 = b % 2 →
      public_key_to_coords x2y (b :: xs) = Except.ok (bytesToNat xs, y) ∧
      coords_to_public_key (bytesToNat xs) y true = b :: xs) ∧
    (∀ xs, xs.length = 64 → (∀ v ∈ xs, v < 256) →
      public_key_to_coords x2y (PUBLIC_KEY_UNCOMPRESSED :: xs) =
        Except.ok (bytesToNat (xs.take 32), bytesToNat (xs.drop 32)) ∧
      coords_to_public_key (bytesToNat (xs.take 32)) (bytesToNat (xs.drop 32)) false =
        PUBLIC_KEY_UNCOMPRESSED :: xs) := by
  constructor
  · intro b xs y hlen hb hflag hxy hpar
    have hfix : natToBytesFixed (bytesToNat xs) 32 = xs := by
      rw [← hlen]
      exact natToBytesFixed_bytesToNat xs hb
    constructor
    · rw [public_key_to_coords_cons33 x2y b xs hlen, hxy]
      rfl
    · rcases hflag with rfl | rfl
      · have hy : y % 2 ≠ 1 := by
          simp only [PUBLIC_KEY_COMPRESSED_EVEN_Y] at hpar
          omega
        simp [coords_to_public_key, hy, hfix, PUBLIC_KEY_COMPRESSED_EVEN_Y]
      · have hy : y % 2 = 1 := by
          simp only [PUBLIC_KEY_COMPRESSED_ODD_Y] at hpar
          omega
        simp [coords_to_public_key, hy, hfix, PUBLIC_KEY_COMPRESSED_ODD_Y]
  · intro xs hlen hb
    have ht : (xs.take 32).length = 32 := by
      rw [List.length_take]
      omega
    have hd : (xs.drop 32).length = 32 := by
      rw [List.length_drop]
      omega
    constructor
    · exact public_key_to_coords_cons65 x2y _ xs hlen
    · have hfx : natToBytesFixed (bytesToNat (xs.take 32)) 32 = xs.take 32 := by
        have hrt := natToBytesFixed_bytesToNat (xs.take 32)
          (fun v hv => hb v (List.take_subset _ _ hv))
        rw [ht] at hrt
        exact hrt
      have hfy : natToBytesFixed (bytesToNat (xs.drop 32)) 32 = xs.drop 32 := by
        have hrd := natToBytesFixed_bytesToNat (xs.drop 32)
          (fun v hv => hb v (List.drop_subset _ _ hv))
        rw [hd] at hrd
        exact hrd
      simp [coords_to_public_key, hfx, hfy, PUBLIC_KEY_UNCOMPRESSED,
        List.take_append_drop]

/-- Witness for C8: the compressed branch evaluated at a 33-byte key with
parity byte 3 and decompression answering 1. -/
theorem public_key_bytes_round_trip_witness :
    public_key_to_coords x2yW (3 :: List.replicate 32 0) =
      Except.ok (bytesToNat (List.replicate 32 0), 1) ∧
    coords_to_public_key (bytesToNat (List.replicate 32 0)) 1 true =
      3 :: List.replicate 32 0 :=
  (public_key_bytes_round_trip x2yW).1 3 (List.replicate 32 0) 1 (by simp)
    (fun v hv => by rw [List.eq_of_mem_replicate hv]; omega)
    (Or.inr rfl) rfl (by decide)

theorem lowS_le_half (s : Nat) : lowS s ≤ GROUP_ORDER / 2 := by
  unfold lowS
  split
  · omega
  · omega

theorem lowS_idem (s : Nat) : lowS (lowS s) = lowS s := by
  have h := lowS_le_half s
  show (if GROUP_ORDER / 2 < lowS s then GROUP_ORDER - lowS s else lowS s) = lowS s
  rw [if_neg (by omega)]

/-- C4: for a decodable signature whose s lies above half the group order,
the canonicalized signature carries s equal to order − s, and that value is
at most half the order (the bound `s < GROUP_ORDER` is the spec's own
invariant on the Signature entity). -/
theorem make_compliant_sig_low_s (dds : List Nat → Except FormatError (Nat × Nat))
    (sig : List Nat) (r s : Nat)
    (hdec : dds sig = Except.ok (r, s))
    (hhi : GROUP_ORDER / 2 < s) (hlt : s < GROUP_ORDER) :
    make_compliant_sig dds sig = Except.ok (serialize_sig r (GROUP_ORDER - s)) ∧
    GROUP_ORDER - s ≤ GROUP_ORDER / 2 := by
  have hl : lowS s = GROUP_ORDER - s := by
    unfold lowS
    rw [if_pos hhi]
  constructor
  · simp [make_compliant_sig, hdec, Except.map, hl]
  · omega

/-- Witness for C4: the decoder answering (1, GROUP_ORDER − 1). -/
theorem make_compliant_sig_low_s_witness :
    make_compliant_sig ddsHigh [] =
      Except.ok (serialize_sig 1 (GROUP_ORDER - (GROUP_ORDER - 1))) ∧
    GROUP_ORDER - (GROUP_ORDER - 1) ≤ GROUP_ORDER / 2 :=
  make_compliant_sig_low_s ddsHigh [] 1 (GROUP_ORDER - 1) rfl (by decide) (by decide)

/-- C5: a signature decoding to s = order − 1 makes strict verification fail
with InvalidSignature (High S), while without strict the high-S check is
skipped and the very same bytes are handed to the verification primitive,
whose result is returned. -/
theorem verify_sig_strict_high_s (dds : List Nat → Except FormatError (Nat × Nat))
    (x2y : Nat → Nat → Except FormatError Nat)
    (vfy : List Nat → List Nat → Nat × Nat → Bool)
    (sig data pk : List Nat) (r : Nat)
    (hdec : dds sig = Except.ok (r, GROUP_ORDER - 1)) :
    verify_sig dds x2y vfy sig data pk true =
      Except.error (FormatError.invalidSignature "High S") ∧
    verify_sig dds x2y vfy sig data pk false =
      (public_key_to_coords x2y pk).map (vfy sig data) := by
  have hhi : GROUP_ORDER / 2 < GROUP_ORDER - 1 := by decide
  constructor
  · simp only [verify_sig, if_true, hdec]
    rw [if_pos hhi]
  · simp [verify_sig]

/-- Witness for C5: the decoder answering (1, GROUP_ORDER − 1) on empty
inputs. -/
theorem verify_sig_strict_high_s_witness :
    verify_sig ddsHigh x2y0 vfy0 [] [] [] true =
      Except.error (FormatError.invalidSignature "High S") ∧
    verify_sig ddsHigh x2y0 vfy0 [] [] [] false =
      (public_key_to_coords x2y0 []).map (vfy0 [] []) :=
  verify_sig_strict_high_s ddsHigh x2y0 vfy0 [] [] [] 1 rfl

/-- C6: canonicalization is idempotent on decodable signatures: running
make_compliant_sig on its own output (the decoder honouring its contract on
that output) returns the output unchanged. -/
theorem make_compliant_sig_idem (dds : List Nat → Except FormatError (Nat × Nat))
    (sig : List Nat) (r s : Nat)
    (hdec : dds sig = Except.ok (r, s))
    (hinv : dds (serialize_sig r (lowS s)) = Except.ok (r, lowS s)) :
    (make_compliant_sig dds sig).bind (make_compliant_sig dds) =
      make_compliant_sig dds sig := by
  simp only [make_compliant_sig, hdec, Except.map, Except.bind, hinv, lowS_idem]

/-- Witness for C6: a constant decoder answering (5, 6). -/
theorem make_compliant_sig_idem_witness :
    ddsConst [] = Except.ok (5, 6) ∧
    ddsConst (serialize_sig 5 (lowS 6)) = Except.ok (5, lowS 6) ∧
    (make_compliant_sig ddsConst []).bind (make_compliant_sig ddsConst) =
      make_compliant_sig ddsConst [] :=
  ⟨rfl, by decide, make_compliant_sig_idem ddsConst [] 5 6 rfl (by decide)⟩

/-- C2 (amended): fromAddress base58Check-decodes (decoder failures, e.g. a
checksum mismatch, propagate) and returns all bytes after the first byte of
the decoded payload; no version-byte validation is performed. -/
theorem address_to_public_key_hash_spec (csum : List Nat → List Nat)
    (address : List Nat) :
    (b58decode_check csum address = none →
      address_to_public_key_hash csum address = none) ∧
    (∀ d, b58decode_check csum address = some d →
      address_to_public_key_hash csum address = some (d.drop 1)) := by
  constructor
  · intro h
    simp [address_to_public_key_hash, h]
  · intro d h
    simp [address_to_public_key_hash, h]

/-- Witness for C2 (amended): a decodable address with version byte 0xFF. -/
theorem address_to_public_key_hash_spec_witness :
    b58decode_check csum0 (b58encode_check csum0 (255 :: List.replicate 20 0)) =
      some (255 :: List.replicate 20 0) ∧
    address_to_public_key_hash csum0 (b58encode_check csum0 (255 :: List.replicate 20 0)) =
      some ((255 :: List.replicate 20 0).drop 1) :=
  ⟨by decide, (address_to_public_key_hash_spec csum0 _).2 _ (by decide)⟩

/-- Counterexample to C2 as stated: an address whose decoded version byte is
0xFF — recognized by no table — is not rejected with InvalidVersion; the
bytes after the version byte are returned. -/
theorem address_to_public_key_hash_no_version_check :
    address_to_public_key_hash csum0
      (b58encode_check csum0 (255 :: List.replicate 20 0)) =
      some (List.replicate 20 0) := by decide

/-- C9: `wif_checksum_check` never raises: any decode failure becomes the
result false, and on success it returns true exactly when the leading byte
of the decoded payload is a recognized private-key version byte (mainnet
0x80 or testnet 0xef). -/
theorem wif_checksum_check_spec (csum : List Nat → List Nat) (wif : List Nat) :
    (b58decode_check csum wif = none → wif_checksum_check csum wif = false) ∧
    (∀ d, b58decode_check csum wif = some d →
      (wif_checksum_check csum wif = true ↔
        (d.take 1 = [MAIN_PRIVATE_KEY] ∨ d.take 1 = [TEST_PRIVATE_KEY]))) := by
  constructor
  · intro h
    simp only [wif_checksum_check, h]
  · intro d h
    simp only [wif_checksum_check, h]
    by_cases hd : d.take 1 = [MAIN_PRIVATE_KEY] ∨ d.take 1 = [TEST_PRIVATE_KEY]
    · rw [if_pos hd]
      simp [hd]
    · rw [if_neg hd]
      simp [hd]

/-- Witness for C9: the one-character text whose decoded payload is a single
zero byte fails the checksum length check and yields false. -/
theorem wif_checksum_check_spec_witness :
    b58decode_check csum0 [0] = none ∧ wif_checksum_check csum0 [0] = false :=
  ⟨by decide, (wif_checksum_check_spec csum0 [0]).1 (by decide)⟩

/-- C10: an accepted WIF text reports compressed = true exactly when the
text is 52 characters long and the decoded payload ends in byte 0x01; in
every other accepted case compressed = false and the key material is all of
the payload after the version byte, so a trailing 0x01 is retained when the
text length is not 52. -/
theorem wif_to_hex_compression_flag (csum : List Nat → List Nat)
    (wif payload : List Nat)
    (hdec : b58decode_check csum wif = some payload)
    (hver : payload.take 1 = [MAIN_PRIVATE_KEY] ∨
            payload.take 1 = [TEST_PRIVATE_KEY]) :
    ∃ key c ver, wif_to_hex csum wif = some (key, c, ver) ∧
      (c = true ↔ (wif.length = 52 ∧ payload.getLastD 0 = 1)) ∧
      ((wif.length = 52 ∧ payload.getLastD 0 = 1) →
        key = (payload.drop 1).dropLast) ∧
      (¬(wif.length = 52 ∧ payload.getLastD 0 = 1) → key = payload.drop 1) := by
  have hv : ∃ ver : Network,
      (ver = Network.main ∧ payload.take 1 = [MAIN_PRIVATE_KEY]) ∨
      (ver = Network.test ∧ payload.take 1 = [TEST_PRIVATE_KEY]) := by
    rcases hver with h | h
    · exact ⟨Network.main, Or.inl ⟨rfl, h⟩⟩
    · exact ⟨Network.test, Or.inr ⟨rfl, h⟩⟩
  obtain ⟨ver, hver2⟩ := hv
  rw [wif_to_hex_of_decode csum wif payload hdec ver hver2]
  by_cases hc : wif.length = 52 ∧ payload.getLastD 0 = 1
  · rw [if_pos hc]
    exact ⟨_, true, ver, rfl, iff_of_true rfl hc, fun _ => rfl, fun h => absurd hc h⟩
  · rw [if_neg hc]
    exact ⟨_, false, ver, rfl, iff_of_false Bool.false_ne_true hc,
      fun h => absurd h hc, fun _ => rfl⟩

/-- Witness for C10: a testnet WIF of an uncompressed key whose last key
byte is 0x01; its text is 51 characters, so the flag is false and the
trailing byte stays in the key. -/
theorem wif_to_hex_compression_flag_witness :
    b58decode_check csum0
        (hex_to_wif csum0 (List.replicate 31 0 ++ [1]) Network.test false) =
      some (239 :: (List.replicate 31 0 ++ [1])) ∧
    (239 :: (List.replicate 31 0 ++ [1])).take 1 = [TEST_PRIVATE_KEY] ∧
    (∃ key c ver,
      wif_to_hex csum0
          (hex_to_wif csum0 (List.replicate 31 0 ++ [1]) Network.test false) =
        some (key, c, ver) ∧
      (c = true ↔
        ((hex_to_wif csum0 (List.replicate 31 0 ++ [1]) Network.test false).length = 52 ∧
          (239 :: (List.replicate 31 0 ++ [1])).getLastD 0 = 1)) ∧
      (((hex_to_wif csum0 (List.replicate 31 0 ++ [1]) Network.test false).length = 52 ∧
          (239 :: (List.replicate 31 0 ++ [1])).getLastD 0 = 1) →
        key = ((239 :: (List.replicate 31 0 ++ [1])).drop 1).dropLast) ∧
      (¬((hex_to_wif csum0 (List.replicate 31 0 ++ [1]) Network.test false).length = 52 ∧
          (239 :: (List.replicate 31 0 ++ [1])).getLastD 0 = 1) →
        key = (239 :: (List.replicate 31 0 ++ [1])).drop 1)) :=
  ⟨by decide, by decide,
    wif_to_hex_compression_flag csum0 _ _ (by decide) (Or.inr (by decide))⟩

end BitFormat
